import Mathlib

/-!
Verification of the enrichment statistics engine of the RetroMol-GUI backend
(`src/server/routes/views.py`, `src/server/routes/helpers.py`).

Numeric idealization: the Python code works in log space with floats
(`math.lgamma` / `math.exp`).  Here probabilities are modelled exactly over
`ℚ`: `exp (_log_hypergeom_probability a b c d)` equals the hypergeometric
point mass `C(a+b,a) * C(c+d,c) / C(a+b+c+d, a+c)` (the nine `lgamma` terms
of views.py lines 29-39 regroup into exactly these three binomials), and the
float comparison `log_prob <= obs_log_prob + 1e-12` — whose slack only exists
to keep exact ties that float rounding might separate — is idealized to the
exact comparison `prob ≤ obsProb` (`exp`/`log` are strictly monotone).
-/

namespace RetroMol

/-- Exact-arithmetic value of `exp (_log_hypergeom_probability a b c d)`
(views.py lines 18-39): the hypergeometric point probability of the 2x2
table `(a, b, c, d)`. -/
def hypergeomProb (a b c d : ℕ) : ℚ :=
  (((a + b).choose a * (c + d).choose c : ℕ) : ℚ) /
    (((a + b + c + d).choose (a + c) : ℕ) : ℚ)

theorem hypergeomProb_nonneg (a b c d : ℕ) : 0 ≤ hypergeomProb a b c d := by
  unfold hypergeomProb
  positivity

/-- One term of Vandermonde's identity is at most the whole sum. -/
theorem choose_mul_choose_le (r1 r2 i j : ℕ) :
    r1.choose i * r2.choose j ≤ (r1 + r2).choose (i + j) := by
  rw [Nat.add_choose_eq]
  have hmem : (i, j) ∈ Finset.antidiagonal (i + j) := Finset.mem_antidiagonal.mpr rfl
  exact Finset.single_le_sum (f := fun ij : ℕ × ℕ => r1.choose ij.1 * r2.choose ij.2)
    (fun _ _ => Nat.zero_le _) hmem

theorem hypergeomProb_le_one (a b c d : ℕ) : hypergeomProb a b c d ≤ 1 := by
  unfold hypergeomProb
  apply div_le_one_of_le₀
  · have h := choose_mul_choose_le (a + b) (c + d) a c
    have he : a + b + (c + d) = a + b + c + d := by ring
    rw [he] at h
    exact_mod_cast h
  · positivity

/-- Swapping the two rows of the table leaves the point probability
unchanged. -/
theorem hypergeomProb_swap (a b c d : ℕ) :
    hypergeomProb c d a b = hypergeomProb a b c d := by
  unfold hypergeomProb
  have h1 : c + d + a + b = a + b + c + d := by ring
  have h2 : c + a = a + c := by ring
  rw [h1, h2, Nat.mul_comm]

/-- One iteration of the loop of `_fisher_exact_two_sided`
(views.py lines 64-72) at loop variable `x`: the three derived cells
`y = r1 - x`, `z = c1 - x`, `w = r2 - z` are Python ints (may be negative),
the iteration contributes nothing when any is negative (`continue`) or when
the candidate table is strictly more probable than the observed one, and
contributes the candidate's point probability otherwise. -/
def fisherLoopTerm (r1 r2 c1 : ℕ) (obsProb : ℚ) (x : ℕ) : ℚ :=
  let y : ℤ := (r1 : ℤ) - (x : ℤ)
  let z : ℤ := (c1 : ℤ) - (x : ℤ)
  let w : ℤ := (r2 : ℤ) - z
  if y < 0 ∨ z < 0 ∨ w < 0 then 0
  else
    let p := hypergeomProb x y.toNat z.toNat w.toNat
    if p ≤ obsProb then p else 0

/-- Body of `_fisher_exact_two_sided` after the negativity guard
(views.py lines 55-74), on the now known-non-negative counts.  `c1 - r2`
is ℕ subtraction, i.e. exactly Python's `max(0, c1 - r2)`. -/
def fisherCore (a b c d : ℕ) : ℚ :=
  let r1 := a + b
  let r2 := c + d
  let c1 := a + c
  let minA := c1 - r2
  let maxA := min r1 c1
  let obsProb := hypergeomProb a b c d
  let pSum := ∑ x ∈ Finset.Icc minA maxA, fisherLoopTerm r1 r2 c1 obsProb x
  min pSum 1

/-- `_fisher_exact_two_sided` (views.py lines 42-74): `none` models the
`ValueError` raised on a negative count. -/
def fisherExactTwoSided (a b c d : ℤ) : Option ℚ :=
  if a < 0 ∨ b < 0 ∨ c < 0 ∨ d < 0 then none
  else some (fisherCore a.toNat b.toNat c.toNat d.toNat)

/-- Point probability of the table whose cell `a` is `x` and whose margins
are `r1, r2, c1`, exactly as claim C1 words it (all subtractions stay
non-negative on the claim's `x` range). -/
def tableProbAt (r1 r2 c1 x : ℕ) : ℚ :=
  hypergeomProb x (r1 - x) (c1 - x) (r2 - (c1 - x))

/-- The formula claim C1 states for the returned p-value: `min 1 S` with `S`
the sum of the point probabilities of the tables in the valid range that are
no more probable than the observed one. -/
def fisherClaimFormula (a b c d : ℕ) : ℚ :=
  min 1 (∑ x ∈ (Finset.Icc ((a + c) - (c + d)) (min (a + b) (a + c))).filter
      (fun x => tableProbAt (a + b) (c + d) (a + c) x ≤ hypergeomProb a b c d),
    tableProbAt (a + b) (c + d) (a + c) x)

theorem intToNat_coe (n : ℕ) : ((n : ℤ)).toNat = n := rfl

/-- `fisherCore` unfolded to its defining expression. -/
theorem fisherCore_def (a b c d : ℕ) :
    fisherCore a b c d =
      min (∑ x ∈ Finset.Icc ((a + c) - (c + d)) (min (a + b) (a + c)),
        fisherLoopTerm (a + b) (c + d) (a + c) (hypergeomProb a b c d) x) 1 := rfl

/-- ℕ-level characterization of one loop iteration: the `continue` guard on
the ℤ cells is equivalent to the three window conditions, and inside the
window the candidate table is `tableProbAt`. -/
theorem fisherLoopTerm_eq (r1 r2 c1 : ℕ) (obsProb : ℚ) (x : ℕ) :
    fisherLoopTerm r1 r2 c1 obsProb x =
      if x ≤ r1 ∧ x ≤ c1 ∧ c1 ≤ x + r2 then
        (if tableProbAt r1 r2 c1 x ≤ obsProb then tableProbAt r1 r2 c1 x else 0)
      else 0 := by
  unfold fisherLoopTerm
  dsimp only
  by_cases h : x ≤ r1 ∧ x ≤ c1 ∧ c1 ≤ x + r2
  · obtain ⟨h1, h2, h3⟩ := h
    have hguard : ¬((r1 : ℤ) - (x : ℤ) < 0 ∨ (c1 : ℤ) - (x : ℤ) < 0 ∨
        (r2 : ℤ) - ((c1 : ℤ) - (x : ℤ)) < 0) := by omega
    have hcond : x ≤ r1 ∧ x ≤ c1 ∧ c1 ≤ x + r2 := ⟨h1, h2, h3⟩
    rw [if_neg hguard, if_pos hcond]
    have e1 : ((r1 : ℤ) - (x : ℤ)).toNat = r1 - x := by omega
    have e2 : ((c1 : ℤ) - (x : ℤ)).toNat = c1 - x := by omega
    have e3 : ((r2 : ℤ) - ((c1 : ℤ) - (x : ℤ))).toNat = r2 - (c1 - x) := by omega
    rw [e1, e2, e3]
    rfl
  · have hguard : (r1 : ℤ) - (x : ℤ) < 0 ∨ (c1 : ℤ) - (x : ℤ) < 0 ∨
        (r2 : ℤ) - ((c1 : ℤ) - (x : ℤ)) < 0 := by omega
    rw [if_pos hguard, if_neg h]

/-- Inside the iteration range the guard of `fisherLoopTerm` never fires and
the candidate table is the one the claim describes. -/
theorem fisherLoopTerm_eq_of_mem (r1 r2 c1 : ℕ) (obsProb : ℚ) (x : ℕ)
    (hx1 : c1 - r2 ≤ x) (hx2 : x ≤ min r1 c1) :
    fisherLoopTerm r1 r2 c1 obsProb x =
      if tableProbAt r1 r2 c1 x ≤ obsProb then tableProbAt r1 r2 c1 x else 0 := by
  have h1 : x ≤ r1 := le_trans hx2 (min_le_left _ _)
  have h2 : x ≤ c1 := le_trans hx2 (min_le_right _ _)
  have hcond : x ≤ r1 ∧ x ≤ c1 ∧ c1 ≤ x + r2 := ⟨h1, h2, by omega⟩
  rw [fisherLoopTerm_eq, if_pos hcond]

/-- C1: for every 2x2 table of non-negative integers, `_fisher_exact_two_sided`
returns `min 1 S` where `S` sums `exp (logP x)` over every `x` in
`[max 0 (col1 - row2), min row1 col1]` with `logP x ≤ logP a` (up to the
float tie tolerance, idealized away in exact arithmetic), `logP` being the
log hypergeometric point probability at cell `a = x` with the same margins. -/
theorem fisher_eq_claim_formula (a b c d : ℕ) :
    fisherExactTwoSided a b c d = some (fisherClaimFormula a b c d) := by
  have hnn : ¬((a : ℤ) < 0 ∨ (b : ℤ) < 0 ∨ (c : ℤ) < 0 ∨ (d : ℤ) < 0) := by omega
  unfold fisherExactTwoSided
  rw [if_neg hnn]
  rw [intToNat_coe, intToNat_coe, intToNat_coe, intToNat_coe]
  congr 1
  unfold fisherCore fisherClaimFormula
  dsimp only
  rw [Finset.sum_filter, min_comm]
  congr 1
  apply Finset.sum_congr rfl
  intro x hx
  rw [Finset.mem_Icc] at hx
  exact fisherLoopTerm_eq_of_mem _ _ _ _ x hx.1 hx.2

theorem fisherLoopTerm_nonneg (r1 r2 c1 : ℕ) (obsProb : ℚ) (x : ℕ) :
    0 ≤ fisherLoopTerm r1 r2 c1 obsProb x := by
  unfold fisherLoopTerm
  dsimp only
  split
  · exact le_refl 0
  · split
    · exact hypergeomProb_nonneg _ _ _ _
    · exact le_refl 0

/-- The observed cell value lies in the iteration range. -/
theorem obs_mem_range (a b c d : ℕ) :
    a ∈ Finset.Icc ((a + c) - (c + d)) (min (a + b) (a + c)) := by
  rw [Finset.mem_Icc]
  constructor
  · omega
  · exact le_min (Nat.le_add_right a b) (Nat.le_add_right a c)

/-- At `x = a` the candidate table is the observed table itself. -/
theorem tableProbAt_obs (a b c d : ℕ) :
    tableProbAt (a + b) (c + d) (a + c) a = hypergeomProb a b c d := by
  unfold tableProbAt
  have e1 : a + b - a = b := by omega
  have e3 : c + d - (a + c - a) = d := by omega
  have e2 : a + c - a = c := by omega
  rw [e1, e3, e2]

theorem obsProb_le_fisherCore (a b c d : ℕ) :
    hypergeomProb a b c d ≤ fisherCore a b c d := by
  rw [fisherCore_def]
  refine le_min ?_ (hypergeomProb_le_one a b c d)
  have hmem := obs_mem_range a b c d
  have hb := Finset.mem_Icc.mp hmem
  have hterm : fisherLoopTerm (a + b) (c + d) (a + c) (hypergeomProb a b c d) a
      = hypergeomProb a b c d := by
    rw [fisherLoopTerm_eq_of_mem (a + b) (c + d) (a + c)
      (hypergeomProb a b c d) a hb.1 hb.2]
    rw [tableProbAt_obs]
    exact if_pos le_rfl
  calc hypergeomProb a b c d
      = fisherLoopTerm (a + b) (c + d) (a + c) (hypergeomProb a b c d) a := hterm.symm
    _ ≤ _ := Finset.single_le_sum
      (f := fun x => fisherLoopTerm (a + b) (c + d) (a + c) (hypergeomProb a b c d) x)
      (fun i _ => fisherLoopTerm_nonneg _ _ _ _ i) hmem

/-- C3: for every non-negative 2x2 table the returned p-value lies in `[0, 1]`
and is at least the point probability of the observed table alone. -/
theorem fisher_pvalue_bounds (a b c d : ℕ) :
    ∃ p : ℚ, fisherExactTwoSided a b c d = some p ∧
      0 ≤ p ∧ p ≤ 1 ∧ hypergeomProb a b c d ≤ p := by
  refine ⟨fisherCore a b c d, ?_, ?_, ?_, obsProb_le_fisherCore a b c d⟩
  · have hnn : ¬((a : ℤ) < 0 ∨ (b : ℤ) < 0 ∨ (c : ℤ) < 0 ∨ (d : ℤ) < 0) := by omega
    unfold fisherExactTwoSided
    rw [if_neg hnn, intToNat_coe, intToNat_coe, intToNat_coe, intToNat_coe]
  · exact le_trans (hypergeomProb_nonneg a b c d) (obsProb_le_fisherCore a b c d)
  · exact min_le_right _ _

/-- Every term of the loop outside the `[minA, maxA]` window (but below
`c1 + 1`) is killed by the negativity guard. -/
theorem fisherLoopTerm_eq_zero_of_not_mem {r1 r2 c1 : ℕ} (obsProb : ℚ) {x : ℕ}
    (hx : x ∉ Finset.Icc (c1 - r2) (min r1 c1)) (_hxc : x < c1 + 1) :
    fisherLoopTerm r1 r2 c1 obsProb x = 0 := by
  rw [Finset.mem_Icc] at hx
  push_neg at hx
  rw [fisherLoopTerm_eq]
  apply if_neg
  rintro ⟨h1, h2, h3⟩
  exact absurd (le_min h1 h2) (not_le.mpr (hx (by omega)))

/-- The loop sum can be extended to the full window `[0, c1]`. -/
theorem fisherSum_eq_range (r1 r2 c1 : ℕ) (obsProb : ℚ) :
    ∑ x ∈ Finset.Icc (c1 - r2) (min r1 c1), fisherLoopTerm r1 r2 c1 obsProb x
      = ∑ x ∈ Finset.range (c1 + 1), fisherLoopTerm r1 r2 c1 obsProb x := by
  apply Finset.sum_subset
  · intro x hx
    rw [Finset.mem_Icc] at hx
    rw [Finset.mem_range]
    exact Nat.lt_succ_of_le (le_trans hx.2 (min_le_right _ _))
  · intro x hx hnx
    exact fisherLoopTerm_eq_zero_of_not_mem _ hnx (Finset.mem_range.mp hx)

/-- Reflecting the loop variable across the window corresponds to swapping
the two rows of the table. -/
theorem fisherLoopTerm_reflect (r1 r2 c1 : ℕ) (obsProb : ℚ) {x : ℕ}
    (hx : x ≤ c1) :
    fisherLoopTerm r2 r1 c1 obsProb (c1 - x) = fisherLoopTerm r1 r2 c1 obsProb x := by
  rw [fisherLoopTerm_eq, fisherLoopTerm_eq]
  have hval : tableProbAt r2 r1 c1 (c1 - x) = tableProbAt r1 r2 c1 x := by
    unfold tableProbAt
    have e : c1 - (c1 - x) = x := by omega
    rw [e]
    exact hypergeomProb_swap x (r1 - x) (c1 - x) (r2 - (c1 - x))
  rw [hval]
  exact if_congr (by omega) rfl rfl

theorem fisherCore_swap (a b c d : ℕ) : fisherCore c d a b = fisherCore a b c d := by
  rw [fisherCore_def, fisherCore_def]
  rw [hypergeomProb_swap a b c d]
  rw [fisherSum_eq_range (c + d) (a + b) (c + a),
    fisherSum_eq_range (a + b) (c + d) (a + c)]
  rw [Nat.add_comm c a]
  congr 1
  calc ∑ x ∈ Finset.range (a + c + 1),
        fisherLoopTerm (c + d) (a + b) (a + c) (hypergeomProb a b c d) x
      = ∑ x ∈ Finset.range (a + c + 1),
        fisherLoopTerm (c + d) (a + b) (a + c) (hypergeomProb a b c d)
          (a + c + 1 - 1 - x) :=
        (Finset.sum_range_reflect _ _).symm
    _ = ∑ x ∈ Finset.range (a + c + 1),
        fisherLoopTerm (a + b) (c + d) (a + c) (hypergeomProb a b c d) x := by
        apply Finset.sum_congr rfl
        intro x hx
        rw [Finset.mem_range] at hx
        have hx' : x ≤ a + c := by omega
        have hsimp : a + c + 1 - 1 - x = a + c - x := by omega
        rw [hsimp]
        exact fisherLoopTerm_reflect (a + b) (c + d) (a + c) _ hx'

/-- The p-value written as a function of the margins and the observed cell
only. -/
def fisherOfMargins (r1 r2 c1 aObs : ℕ) : ℚ :=
  min (∑ x ∈ Finset.Icc (c1 - r2) (min r1 c1),
    fisherLoopTerm r1 r2 c1 (tableProbAt r1 r2 c1 aObs) x) 1

/-- C4: swapping the two rows of the table (`a↔c`, `b↔d`) yields the same
p-value, and the p-value is a function of the margins
`(row1, row2, col1)` (hence `col2 = row1 + row2 - col1`) together with the
observed cell only. -/
theorem fisher_row_swap (a b c d : ℕ) :
    fisherExactTwoSided a b c d = fisherExactTwoSided c d a b ∧
    fisherCore a b c d = fisherOfMargins (a + b) (c + d) (a + c) a := by
  constructor
  · unfold fisherExactTwoSided
    rw [if_neg (by omega), if_neg (by omega)]
    rw [intToNat_coe, intToNat_coe, intToNat_coe, intToNat_coe]
    exact congrArg some (fisherCore_swap a b c d).symm
  · rw [fisherCore_def]
    unfold fisherOfMargins
    rw [tableProbAt_obs]

/-- C5: `_fisher_exact_two_sided` rejects (raises `ValueError`, modelled as
`none`) whenever any cell is negative, and deterministically returns `1.0`
on the degenerate all-zero table. -/
theorem fisher_rejects_negative_and_zero_table :
    (∀ a b c d : ℤ, (a < 0 ∨ b < 0 ∨ c < 0 ∨ d < 0) →
      fisherExactTwoSided a b c d = none)
    ∧ fisherExactTwoSided 0 0 0 0 = some 1 := by
  constructor
  · intro a b c d h
    unfold fisherExactTwoSided
    rw [if_pos h]
  · have hcore : fisherCore 0 0 0 0 = 1 := by
      rw [fisherCore_def]
      norm_num [fisherLoopTerm_eq, tableProbAt, hypergeomProb]
    unfold fisherExactTwoSided
    rw [if_neg (by omega)]
    simp only [Int.toNat_zero]
    rw [hcore]

/-- Witness for C5 at the concrete input `(-1, 0, 0, 0)`. -/
theorem fisher_rejects_negative_witness :
    ((-1 : ℤ) < 0 ∨ (0 : ℤ) < 0 ∨ (0 : ℤ) < 0 ∨ (0 : ℤ) < 0) ∧
    fisherExactTwoSided (-1) 0 0 0 = none :=
  ⟨by decide, fisher_rejects_negative_and_zero_table.1 (-1) 0 0 0 (by decide)⟩

/-! ### Benjamini-Hochberg correction (views.py lines 339-361)

The code argsorts the candidates by `p_value` with Python's stable `sorted`
and walks `order_idx` from `m - 1` down to `0`, keeping a running
`cumulative_min` (initialized to `1.0`); the value written for the candidate
at 1-based rank `i` of that ascending order is `cumulative_min` after the
ranks `m, m-1, ..., i` have been processed, clamped to `1.0`
(`cumulative_min if cumulative_min < 1.0 else 1.0 = min cumulative_min 1`).
The embedding works with the ascending value sequence (a stable insertion
sort, matching Python's stable sort) and indexes the loop by the number of
iterations performed. -/

/-- The raw p-values in ascending order (`sorted_indices` maps ranks to
candidates; the value seen at `order_idx` is the `order_idx`-th smallest). -/
def bhSorted (ps : List ℚ) : List ℚ := ps.insertionSort (· ≤ ·)

/-- `cumulative_min` after `k` iterations of the descending loop over the
sorted p-values `q` (`m = q.length`): iteration `k + 1` processes
`order_idx = m - 1 - k`, i.e. rank `m - k`, whose raw adjustment is
`q[m - (k+1)] * m / (m - k)`. -/
def bhCumulativeMin (q : List ℚ) : ℕ → ℚ
  | 0 => 1
  | k + 1 =>
      min (bhCumulativeMin q k)
        (q.getD (q.length - (k + 1)) 0 * (q.length : ℚ) / ((q.length - k : ℕ) : ℚ))

/-- Adjusted p-value stored for the candidate at 1-based rank `i`: the loop
has then performed `m + 1 - i` iterations (ranks `m` down to `i`), and the
stored value is `cumulative_min` clamped to `1.0`. -/
def bhAdjusted (ps : List ℚ) (i : ℕ) : ℚ :=
  min (bhCumulativeMin (bhSorted ps) (ps.length + 1 - i)) 1

theorem bhCumulativeMin_le (q : List ℚ) (k d : ℕ) :
    bhCumulativeMin q (k + d) ≤ bhCumulativeMin q k := by
  induction d with
  | zero => exact le_refl _
  | succ d ih =>
      exact le_trans (min_le_left _ _) ih

/-- Closed form for the running minimum: after processing ranks
`m, ..., i` (that is `k` iterations with `i + k = m + 1`) it equals
`min 1 (min over j ∈ [i, m] of q⟨j⟩ * m / j)`. -/
theorem bhCumulativeMin_closed (q : List ℚ) :
    ∀ k i : ℕ, (hk1 : 1 ≤ k) → (hkm : k ≤ q.length) →
    (hik : i + k = q.length + 1) →
    bhCumulativeMin q k =
      min 1 ((Finset.Icc i q.length).inf'
        (Finset.nonempty_Icc.mpr (by omega))
        (fun j => q.getD (j - 1) 0 * (q.length : ℚ) / (j : ℚ))) := by
  intro k
  induction k with
  | zero => intro i hk1 _ _; exact absurd hk1 (by omega)
  | succ k ih =>
    intro i hk1 hkm hik
    rcases Nat.eq_zero_or_pos k with hk0 | hkpos
    · subst hk0
      have hi : i = q.length := by omega
      subst hi
      simp only [bhCumulativeMin, Finset.Icc_self, Finset.inf'_singleton,
        Nat.sub_zero]
    · have hins : Finset.Icc i q.length
          = insert i (Finset.Icc (i + 1) q.length) :=
        (Nat.Icc_insert_succ_left (by omega)).symm
      have hne : (Finset.Icc (i + 1) q.length).Nonempty :=
        Finset.nonempty_Icc.mpr (by omega)
      have hih := ih (i + 1) hkpos (by omega) (by omega)
      simp only [bhCumulativeMin]
      rw [hih]
      have hsplit : (Finset.Icc i q.length).inf'
            (Finset.nonempty_Icc.mpr (by omega))
            (fun j => q.getD (j - 1) 0 * (q.length : ℚ) / (j : ℚ))
          = (q.getD (i - 1) 0 * (q.length : ℚ) / (i : ℚ)) ⊓
            (Finset.Icc (i + 1) q.length).inf' hne
              (fun j => q.getD (j - 1) 0 * (q.length : ℚ) / (j : ℚ)) := by
        apply le_antisymm
        · apply le_inf
          · exact Finset.inf'_le _ (Finset.mem_Icc.mpr ⟨le_refl i, by omega⟩)
          · rw [Finset.le_inf'_iff]
            intro b hb
            rw [Finset.mem_Icc] at hb
            exact Finset.inf'_le _ (Finset.mem_Icc.mpr ⟨by omega, hb.2⟩)
        · rw [Finset.le_inf'_iff]
          intro b hb
          rw [Finset.mem_Icc] at hb
          rcases Nat.eq_or_lt_of_le hb.1 with hbi | hbi
          · subst hbi
            exact inf_le_left
          · exact le_trans inf_le_right
              (Finset.inf'_le _ (Finset.mem_Icc.mpr ⟨by omega, hb.2⟩))
      rw [hsplit]
      have e1 : q.length - (k + 1) = i - 1 := by omega
      have e2 : q.length - k = i := by omega
      rw [e1, e2]
      rw [min_assoc, min_comm ((Finset.Icc (i + 1) q.length).inf' hne
        (fun j => q.getD (j - 1) 0 * (q.length : ℚ) / (j : ℚ)))
        (q.getD (i - 1) 0 * (q.length : ℚ) / (i : ℚ))]

/-- C2: for a non-empty candidate list with raw p-values in `[0, 1]`, the
BH correction assigns rank `i` (1-based, ascending raw order) the adjusted
value `min 1 (min over j ∈ [i, m] of p⟨j⟩ * m / j)`; adjusted values are
non-decreasing in the rank, always at most `1`, and for `m = 1` the adjusted
value equals the raw p-value. -/
theorem bh_correction_spec (ps : List ℚ) (i : ℕ)
    (hps : ∀ p ∈ ps, 0 ≤ p ∧ p ≤ 1)
    (hi1 : 1 ≤ i) (him : i ≤ ps.length) :
    bhAdjusted ps i
      = min 1 ((Finset.Icc i ps.length).inf' (Finset.nonempty_Icc.mpr him)
          (fun j => (bhSorted ps).getD (j - 1) 0 * (ps.length : ℚ) / (j : ℚ)))
    ∧ (∀ j, i ≤ j → j ≤ ps.length → bhAdjusted ps i ≤ bhAdjusted ps j)
    ∧ bhAdjusted ps i ≤ 1
    ∧ (ps.length = 1 → bhAdjusted ps 1 = ps.getD 0 0) := by
  have hq : (bhSorted ps).length = ps.length := List.length_insertionSort _ _
  refine ⟨?_, ?_, min_le_right _ _, ?_⟩
  · have hmain := bhCumulativeMin_closed (bhSorted ps) (ps.length + 1 - i) i
      (by omega) (by omega) (by omega)
    simp only [hq] at hmain
    unfold bhAdjusted
    rw [hmain, min_comm, ← min_assoc, min_self]
  · intro j hij hjm
    unfold bhAdjusted
    have hle : ps.length + 1 - j ≤ ps.length + 1 - i := by omega
    obtain ⟨d, hd⟩ := Nat.le.dest hle
    apply min_le_min ?_ (le_refl 1)
    rw [← hd]
    exact bhCumulativeMin_le (bhSorted ps) (ps.length + 1 - j) d
  · intro hlen
    obtain ⟨a, rfl⟩ := List.length_eq_one.mp hlen
    have ha : a ≤ 1 := (hps a (by simp)).2
    have hs : bhSorted [a] = [a] := rfl
    unfold bhAdjusted
    rw [hs]
    norm_num [bhCumulativeMin]
    exact ha

/-- Witness for C2 at the concrete input `ps = [1/2]`, `i = 1`. -/
theorem bh_correction_witness :
    ((∀ p ∈ [(1 : ℚ)/2], 0 ≤ p ∧ p ≤ 1) ∧ 1 ≤ 1 ∧ 1 ≤ [(1 : ℚ)/2].length) ∧
    (bhAdjusted [(1 : ℚ)/2] 1
        = min 1 ((Finset.Icc 1 [(1 : ℚ)/2].length).inf'
            (Finset.nonempty_Icc.mpr (by norm_num))
            (fun j => (bhSorted [(1 : ℚ)/2]).getD (j - 1) 0 *
              (([(1 : ℚ)/2].length : ℕ) : ℚ) / (j : ℚ)))
      ∧ (∀ j, 1 ≤ j → j ≤ [(1 : ℚ)/2].length →
          bhAdjusted [(1 : ℚ)/2] 1 ≤ bhAdjusted [(1 : ℚ)/2] j)
      ∧ bhAdjusted [(1 : ℚ)/2] 1 ≤ 1
      ∧ ([(1 : ℚ)/2].length = 1 →
          bhAdjusted [(1 : ℚ)/2] 1 = [(1 : ℚ)/2].getD 0 0)) := by
  have hp : ∀ p ∈ [(1 : ℚ)/2], 0 ≤ p ∧ p ≤ 1 := by norm_num
  exact ⟨⟨hp, le_rfl, by norm_num⟩,
    bh_correction_spec [(1 : ℚ)/2] 1 hp le_rfl (by norm_num)⟩

/-! ### Contingency aggregation (views.py lines 282-337) -/

/-- One annotation-count row; only `scheme`, `key`, `value`, `n_compounds`
and `n_genbank_regions` are read by the enrichment code. -/
structure AnnRow where
  scheme : String
  key : String
  value : String
  n_compounds : ℤ
  n_genbank_regions : ℤ
deriving DecidableEq

/-- `_ann_key` (views.py lines 293-294). -/
def annKey (row : AnnRow) : String × String × String :=
  (row.scheme, row.key, row.value)

/-- `full_lookup = {_ann_key(row): row for row in full_rows}` followed by
`.get(key)`: a Python dict comprehension keeps the LAST row with any given
key, so the lookup searches the reversed list. -/
def fullLookup (fullRows : List AnnRow) (k : String × String × String) :
    Option AnnRow :=
  fullRows.reverse.find? (fun row => decide (annKey row = k))

/-- The candidate contingency table built for one subset row
(views.py lines 298-327); `none` models `continue` (the row is skipped
silently). -/
def aggregateRow (subsetTotal backgroundTotal : ℤ) (fullRows : List AnnRow)
    (row : AnnRow) : Option (AnnRow × ℤ × ℤ × ℤ × ℤ) :=
  match fullLookup fullRows (annKey row) with
  | none => none
  | some baseRow =>
    let subsetWith := row.n_compounds + row.n_genbank_regions
    if subsetWith ≤ 0 then none
    else
      let backgroundWith := baseRow.n_compounds + baseRow.n_genbank_regions
      if backgroundWith ≤ 0 ∨ backgroundWith < subsetWith then none
      else
        let a := subsetWith
        let b := subsetTotal - a
        let backgroundOnlyTotal := backgroundTotal - subsetTotal
        let c := backgroundWith - a
        let d := backgroundOnlyTotal - c
        if a < 0 ∨ b < 0 ∨ c < 0 ∨ d < 0 then none
        else some (row, a, b, c, d)

/-- The aggregation stage (views.py lines 287-327): the whole block runs
only under `subset_rows and full_rows and subset_total_targets > 0 and
background_total_targets > subset_total_targets` (Python truthiness of the
lists), and then appends one candidate table per surviving subset row. -/
def aggregateTables (subsetTotal backgroundTotal : ℤ)
    (fullRows subsetRows : List AnnRow) : List (AnnRow × ℤ × ℤ × ℤ × ℤ) :=
  if subsetRows ≠ [] ∧ fullRows ≠ [] ∧ 0 < subsetTotal ∧
      subsetTotal < backgroundTotal then
    subsetRows.filterMap (aggregateRow subsetTotal backgroundTotal fullRows)
  else []

theorem aggregateRow_eq_none_of_nonpos (sT bT : ℤ) (fullRows : List AnnRow)
    (row : AnnRow) (hsT : sT ≤ 0) :
    aggregateRow sT bT fullRows row = none := by
  unfold aggregateRow
  cases hfl : fullLookup fullRows (annKey row) with
  | none => rfl
  | some base =>
    dsimp only
    by_cases h1 : row.n_compounds + row.n_genbank_regions ≤ 0
    · rw [if_pos h1]
    · rw [if_neg h1]
      by_cases h2 : base.n_compounds + base.n_genbank_regions ≤ 0 ∨
          base.n_compounds + base.n_genbank_regions <
            row.n_compounds + row.n_genbank_regions
      · rw [if_pos h2]
      · rw [if_neg h2, if_pos (by omega)]

/-- C6 (amended: the aggregation stage requires the STRICT inequality
`subset_total < background_total`; at equality the code skips the whole
block and emits nothing): under that guard the aggregator emits, per subset
row, exactly the table produced by `aggregateRow`, and `aggregateRow` emits
a table if and only if a matching full row exists (last occurrence wins),
`subset_with > 0`, `background_with > 0`, `background_with ≥ subset_with`
and the four derived cells `a = subset_with`, `b = subset_total - a`,
`c = background_with - a`, `d = (background_total - subset_total) - c` are
all non-negative; the emitted table is exactly that one. -/
theorem aggregator_spec (sT bT : ℤ) (fullRows subsetRows : List AnnRow)
    (row : AnnRow) (hlt : sT < bT) :
    aggregateTables sT bT fullRows subsetRows
        = subsetRows.filterMap (aggregateRow sT bT fullRows)
    ∧ ((∃ t, aggregateRow sT bT fullRows row = some t) ↔
        (∃ base, fullLookup fullRows (annKey row) = some base
          ∧ 0 < row.n_compounds + row.n_genbank_regions
          ∧ 0 < base.n_compounds + base.n_genbank_regions
          ∧ row.n_compounds + row.n_genbank_regions
              ≤ base.n_compounds + base.n_genbank_regions
          ∧ 0 ≤ row.n_compounds + row.n_genbank_regions
          ∧ 0 ≤ sT - (row.n_compounds + row.n_genbank_regions)
          ∧ 0 ≤ (base.n_compounds + base.n_genbank_regions)
              - (row.n_compounds + row.n_genbank_regions)
          ∧ 0 ≤ (bT - sT) - ((base.n_compounds + base.n_genbank_regions)
              - (row.n_compounds + row.n_genbank_regions))))
    ∧ (∀ base t, fullLookup fullRows (annKey row) = some base →
        aggregateRow sT bT fullRows row = some t →
        t = (row, row.n_compounds + row.n_genbank_regions,
          sT - (row.n_compounds + row.n_genbank_regions),
          (base.n_compounds + base.n_genbank_regions)
            - (row.n_compounds + row.n_genbank_regions),
          (bT - sT) - ((base.n_compounds + base.n_genbank_regions)
            - (row.n_compounds + row.n_genbank_regions)))) := by
  refine ⟨?_, ?_, ?_⟩
  · unfold aggregateTables
    by_cases hg : subsetRows ≠ [] ∧ fullRows ≠ [] ∧ 0 < sT ∧ sT < bT
    · rw [if_pos hg]
    · rw [if_neg hg]
      symm
      rw [List.filterMap_eq_nil_iff]
      intro r hr
      by_cases hsr : subsetRows = []
      · rw [hsr] at hr
        exact absurd hr (List.not_mem_nil r)
      · by_cases hfr : fullRows = []
        · subst hfr
          unfold aggregateRow
          rfl
        · have hsT : sT ≤ 0 := by
            rcases not_and_or.mp hg with h | h
            · exact absurd hsr (by simpa using h)
            · rcases not_and_or.mp h with h' | h'
              · exact absurd hfr (by simpa using h')
              · rcases not_and_or.mp h' with h'' | h''
                · omega
                · exact absurd hlt h''
          exact aggregateRow_eq_none_of_nonpos sT bT fullRows r hsT
  · constructor
    · rintro ⟨t, ht⟩
      unfold aggregateRow at ht
      cases hfl : fullLookup fullRows (annKey row) with
      | none => rw [hfl] at ht; exact absurd ht (by simp)
      | some base =>
        rw [hfl] at ht
        dsimp only at ht
        split_ifs at ht with h1 h2 h3
        push_neg at h1
        rw [not_or] at h2
        push_neg at h2 h3
        exact ⟨base, rfl, by omega, by omega, by omega, by omega,
          by omega, by omega, by omega⟩
    · rintro ⟨base, hfl, hc1, hc2, hc3, hc4, hc5, hc6, hc7⟩
      unfold aggregateRow
      rw [hfl]
      dsimp only
      rw [if_neg (by omega), if_neg (by omega), if_neg (by omega)]
      exact ⟨_, rfl⟩
  · intro base t hfl ht
    unfold aggregateRow at ht
    rw [hfl] at ht
    dsimp only at ht
    split_ifs at ht
    exact (Option.some_inj.mp ht).symm

/-- The concrete annotation row used in the C6 counterexample and witness. -/
def annRowOne : AnnRow := ⟨"npclassifier", "pathway", "polyketides", 1, 0⟩

/-- Counterexample to C6 as stated: with `subset_total = background_total
= 1` (so the claim's premise `subset_total ≤ background_total` holds) and a
subset row satisfying every claimed emission condition — the matching full
row exists, `subset_with = background_with = 1 > 0`, and
`a = 1, b = 0, c = 0, d = 0` are all non-negative — the aggregator still
emits nothing, because the code demands the strict inequality
`background_total > subset_total`. -/
theorem aggregator_equal_totals_counterexample :
    (1 : ℤ) ≤ (1 : ℤ)
    ∧ fullLookup [annRowOne] (annKey annRowOne) = some annRowOne
    ∧ 0 < annRowOne.n_compounds + annRowOne.n_genbank_regions
    ∧ 0 < annRowOne.n_compounds + annRowOne.n_genbank_regions
    ∧ annRowOne.n_compounds + annRowOne.n_genbank_regions
        ≤ annRowOne.n_compounds + annRowOne.n_genbank_regions
    ∧ 0 ≤ annRowOne.n_compounds + annRowOne.n_genbank_regions
    ∧ 0 ≤ (1 : ℤ) - (annRowOne.n_compounds + annRowOne.n_genbank_regions)
    ∧ 0 ≤ (annRowOne.n_compounds + annRowOne.n_genbank_regions)
        - (annRowOne.n_compounds + annRowOne.n_genbank_regions)
    ∧ 0 ≤ ((1 : ℤ) - 1)
        - ((annRowOne.n_compounds + annRowOne.n_genbank_regions)
          - (annRowOne.n_compounds + annRowOne.n_genbank_regions))
    ∧ aggregateTables 1 1 [annRowOne] [annRowOne] = [] := by
  decide

/-- Witness for the amended C6 at `subset_total = 1 < background_total = 2`. -/
theorem aggregator_spec_witness :
    (1 : ℤ) < 2 ∧
    (aggregateTables 1 2 [annRowOne] [annRowOne]
        = [annRowOne].filterMap (aggregateRow 1 2 [annRowOne])
    ∧ ((∃ t, aggregateRow 1 2 [annRowOne] annRowOne = some t) ↔
        (∃ base, fullLookup [annRowOne] (annKey annRowOne) = some base
          ∧ 0 < annRowOne.n_compounds + annRowOne.n_genbank_regions
          ∧ 0 < base.n_compounds + base.n_genbank_regions
          ∧ annRowOne.n_compounds + annRowOne.n_genbank_regions
              ≤ base.n_compounds + base.n_genbank_regions
          ∧ 0 ≤ annRowOne.n_compounds + annRowOne.n_genbank_regions
          ∧ 0 ≤ (1 : ℤ) - (annRowOne.n_compounds + annRowOne.n_genbank_regions)
          ∧ 0 ≤ (base.n_compounds + base.n_genbank_regions)
              - (annRowOne.n_compounds + annRowOne.n_genbank_regions)
          ∧ 0 ≤ ((2 : ℤ) - 1) - ((base.n_compounds + base.n_genbank_regions)
              - (annRowOne.n_compounds + annRowOne.n_genbank_regions))))
    ∧ (∀ base t, fullLookup [annRowOne] (annKey annRowOne) = some base →
        aggregateRow 1 2 [annRowOne] annRowOne = some t →
        t = (annRowOne, annRowOne.n_compounds + annRowOne.n_genbank_regions,
          (1 : ℤ) - (annRowOne.n_compounds + annRowOne.n_genbank_regions),
          (base.n_compounds + base.n_genbank_regions)
            - (annRowOne.n_compounds + annRowOne.n_genbank_regions),
          ((2 : ℤ) - 1) - ((base.n_compounds + base.n_genbank_regions)
            - (annRowOne.n_compounds + annRowOne.n_genbank_regions))))) :=
  ⟨by decide, aggregator_spec 1 2 [annRowOne] [annRowOne] annRowOne (by decide)⟩

/-! ### Fingerprint hex encoding (helpers.py lines 18-52)

`bits_to_hex` builds the 0/1 bit string (bits modelled as `Bool`, `1` as
`true`), reads it as a big-endian binary number (`int(bitstring, 2)`),
renders it as Python's minimal lowercase hex (`hex(n)[2:]`, modelled through
`Nat.digits 16`; for `n = 0` Python yields `"0"` and `Nat.digits` yields
`[]`, which agree after the `zfill`) and left-pads to 128 characters.
`hex_to_bits` parses with `int(hexstr, 16)` (strict hex digits; CPython's
extra tolerance for underscores, surrounding whitespace and a sign is not
modelled), renders `bin(n)[2:]` and left-pads to 512 bits. -/

/-- Lowercase hex digit characters as produced by Python's `hex()`. -/
def hexDigitChar (d : ℕ) : Char :=
  if d < 10 then Char.ofNat (48 + d) else Char.ofNat (87 + d)

/-- Value of one hex-digit character as accepted by `int(s, 16)`. -/
def hexCharVal? (ch : Char) : Option ℕ :=
  if '0' ≤ ch ∧ ch ≤ '9' then some (ch.toNat - 48)
  else if 'a' ≤ ch ∧ ch ≤ 'f' then some (ch.toNat - 87)
  else if 'A' ≤ ch ∧ ch ≤ 'F' then some (ch.toNat - 55)
  else none

/-- One step of the big-endian base-16 accumulation of `int(hexstr, 16)`;
a non-hex character poisons the parse (`ValueError`). -/
def parseHexStep (acc : Option ℕ) (ch : Char) : Option ℕ :=
  match acc, hexCharVal? ch with
  | some n, some v => some (16 * n + v)
  | _, _ => none

/-- `int(hexstr, 16)` on the character list. -/
def parseHexNat? (l : List Char) : Option ℕ :=
  l.foldl parseHexStep (some 0)

/-- `int(bitstring, 2)` where `bitstring` is the joined 0/1 string of the
flattened array (helpers.py line 33-34). -/
def bitsToNat (bits : List Bool) : ℕ :=
  bits.foldl (fun acc b => 2 * acc + (if b then 1 else 0)) 0

/-- `str.zfill w`: left-pad with `'0'` (no-op when already long enough). -/
def zfill (w : ℕ) (l : List Char) : List Char :=
  List.replicate (w - l.length) '0' ++ l

/-- Python's `hex(n)[2:]`: minimal lowercase hex, big-endian. -/
def hexDigitsOf (n : ℕ) : List Char :=
  ((Nat.digits 16 n).reverse).map hexDigitChar

/-- `bits_to_hex` (helpers.py lines 18-35) on the flattened bit vector;
`none` models the `ValueError` when the input does not have 512 entries. -/
def bits_to_hex (bits : List Bool) : Option (List Char) :=
  if bits.length = 512 then some (zfill 128 (hexDigitsOf (bitsToNat bits)))
  else none

/-- `bin(n)[2:]`: minimal binary digits, big-endian, as booleans. -/
def binDigitsOf (n : ℕ) : List Bool :=
  ((Nat.digits 2 n).reverse).map (fun d => d == 1)

/-- Left-pad with `false` to width `w` (`zfill(512)` of helpers.py line 51
composed with the per-character `int` of line 52). -/
def bfill (w : ℕ) (l : List Bool) : List Bool :=
  List.replicate (w - l.length) false ++ l

/-- `hex_to_bits` (helpers.py lines 38-52): `none` models the `ValueError`
on a wrong-length input or, from `int(hexstr, 16)`, a non-hex character. -/
def hex_to_bits (hexstr : List Char) : Option (List Bool) :=
  if hexstr.length = 128 then
    match parseHexNat? hexstr with
    | some n => some (bfill 512 (binDigitsOf n))
    | none => none
  else none

theorem bitsToNat_foldl_lt (bits : List Bool) :
    ∀ acc : ℕ, bits.foldl (fun acc b => 2 * acc + (if b then 1 else 0)) acc
      < (acc + 1) * 2 ^ bits.length := by
  induction bits with
  | nil => intro acc; simp
  | cons b t ih =>
    intro acc
    rw [List.foldl_cons, List.length_cons]
    calc t.foldl (fun acc b => 2 * acc + (if b then 1 else 0))
          (2 * acc + (if b then 1 else 0))
        < (2 * acc + (if b then 1 else 0) + 1) * 2 ^ t.length := ih _
      _ ≤ (acc + 1) * 2 ^ (t.length + 1) := by
          rw [pow_succ]
          have hb : (if b then 1 else 0) ≤ 1 := by split <;> omega
          nlinarith [Nat.pos_pow_of_pos t.length (show 0 < 2 by norm_num)]

theorem bitsToNat_lt (bits : List Bool) : bitsToNat bits < 2 ^ bits.length := by
  have h := bitsToNat_foldl_lt bits 0
  simpa [bitsToNat] using h

theorem digits_len_le_of_lt {b n k : ℕ} (hb : 1 < b) (h : n < b ^ k) :
    (Nat.digits b n).length ≤ k := by
  rcases Nat.eq_zero_or_pos n with hn | hn
  · subst hn; simp
  · rw [Nat.digits_len b n hb (by omega)]
    have := Nat.log_lt_of_lt_pow (by omega : n ≠ 0) h
    omega

theorem zfill_length {w : ℕ} {l : List Char} (h : l.length ≤ w) :
    (zfill w l).length = w := by
  simp only [zfill, List.length_append, List.length_replicate]
  omega

theorem hexCharVal_hexDigitChar : ∀ d : ℕ, d < 16 →
    hexCharVal? (hexDigitChar d) = some d := by decide

theorem parseHex_reverse_digits (ds : List ℕ) (hds : ∀ d ∈ ds, d < 16) :
    ∀ acc : ℕ, (ds.reverse.map hexDigitChar).foldl parseHexStep (some acc)
      = some (acc * 16 ^ ds.length + Nat.ofDigits 16 ds) := by
  induction ds with
  | nil => intro acc; simp [Nat.ofDigits]
  | cons d t ih =>
    intro acc
    rw [List.reverse_cons, List.map_append, List.foldl_append]
    rw [ih (fun x hx => hds x (List.mem_cons_of_mem d hx)) acc]
    have hd : hexCharVal? (hexDigitChar d) = some d :=
      hexCharVal_hexDigitChar d (hds d (List.mem_cons_self d t))
    simp only [List.map_cons, List.map_nil, List.foldl_cons, List.foldl_nil,
      parseHexStep, hd]
    rw [Nat.ofDigits_cons, List.length_cons]
    congr 1
    ring

theorem parseHex_replicate_zero (k : ℕ) (rest : List Char) :
    (List.replicate k '0' ++ rest).foldl parseHexStep (some 0)
      = rest.foldl parseHexStep (some 0) := by
  induction k with
  | zero => rfl
  | succ k ih =>
    rw [List.replicate_succ, List.cons_append, List.foldl_cons]
    exact ih

theorem parseHexNat_round (n : ℕ) :
    parseHexNat? (zfill 128 (hexDigitsOf n)) = some n := by
  unfold parseHexNat? zfill
  rw [parseHex_replicate_zero]
  unfold hexDigitsOf
  rw [parseHex_reverse_digits (Nat.digits 16 n)
    (fun d hd => Nat.digits_lt_base (by norm_num) hd) 0]
  rw [Nat.ofDigits_digits]
  norm_num

/-- Big-endian fixed-width binary rendering, the shape `bin(n)[2:].zfill(w)`
takes for `n < 2 ^ w`. -/
def natToBits : ℕ → ℕ → List Bool
  | 0, _ => []
  | w + 1, n => natToBits w (n / 2) ++ [n % 2 == 1]

theorem bfill_binDigits_eq_natToBits :
    ∀ (w n : ℕ), n < 2 ^ w → bfill w (binDigitsOf n) = natToBits w n := by
  intro w
  induction w with
  | zero =>
    intro n hn
    interval_cases n
    simp [bfill, binDigitsOf, natToBits]
  | succ w ih =>
    intro n hn
    have hhalf : n / 2 < 2 ^ w :=
      Nat.div_lt_of_lt_mul (by rw [← pow_succ']; exact hn)
    rcases Nat.eq_zero_or_pos n with hn0 | hn0
    · subst hn0
      have hz : binDigitsOf 0 = ([] : List Bool) := by simp [binDigitsOf]
      have hw : natToBits w 0 = List.replicate w false := by
        rw [← ih 0 (Nat.pos_pow_of_pos w (by norm_num)), hz]
        simp [bfill]
      rw [hz]
      show bfill (w + 1) [] = natToBits (w + 1) 0
      rw [show natToBits (w + 1) 0 = natToBits w 0 ++ [false] from rfl, hw]
      simp [bfill, List.replicate_succ']
    · have hdig : Nat.digits 2 n = n % 2 :: Nat.digits 2 (n / 2) :=
        Nat.digits_def' (by norm_num) hn0
      have hbin : binDigitsOf n = binDigitsOf (n / 2) ++ [n % 2 == 1] := by
        unfold binDigitsOf
        rw [hdig, List.reverse_cons, List.map_append]
        rfl
      have hlen : (binDigitsOf (n / 2)).length ≤ w := by
        unfold binDigitsOf
        rw [List.length_map, List.length_reverse]
        exact digits_len_le_of_lt (by norm_num) hhalf
      have hstep : bfill (w + 1) (binDigitsOf (n / 2) ++ [n % 2 == 1])
          = bfill w (binDigitsOf (n / 2)) ++ [n % 2 == 1] := by
        simp only [bfill, List.length_append, List.length_cons,
          List.length_nil]
        rw [show w + 1 - ((binDigitsOf (n / 2)).length + (0 + 1))
            = w - (binDigitsOf (n / 2)).length from by omega]
        rw [List.append_assoc]
      rw [hbin, hstep, ih (n / 2) hhalf]
      rfl

theorem natToBits_bitsToNat (bits : List Bool) :
    natToBits bits.length (bitsToNat bits) = bits := by
  induction bits using List.reverseRecOn with
  | nil => rfl
  | append_singleton l b ih =>
    have hfold : bitsToNat (l ++ [b]) = 2 * bitsToNat l + (if b then 1 else 0) := by
      unfold bitsToNat
      rw [List.foldl_append, List.foldl_cons, List.foldl_nil]
    rw [List.length_append, List.length_cons, List.length_nil, hfold]
    have hdiv : (2 * bitsToNat l + (if b then 1 else 0)) / 2 = bitsToNat l := by
      split <;> omega
    have hmod : ((2 * bitsToNat l + (if b then 1 else 0)) % 2 == 1) = b := by
      cases b <;> simp <;> omega
    show natToBits (l.length + 1) (2 * bitsToNat l + (if b then 1 else 0)) = l ++ [b]
    unfold natToBits
    rw [hdiv, hmod, ih]

/-- C10: on any 512-entry 0/1 vector, `bits_to_hex` succeeds and yields a
128-character string of hexadecimal digits, and `hex_to_bits` applied to it
recovers the original (flattened) bit vector exactly. -/
theorem fingerprint_hex_round_trip (bits : List Bool)
    (hlen : bits.length = 512) :
    ∃ h : List Char, bits_to_hex bits = some h ∧ h.length = 128
      ∧ (∀ ch ∈ h, (hexCharVal? ch).isSome = true)
      ∧ hex_to_bits h = some bits := by
  have hn : bitsToNat bits < 2 ^ 512 := by
    have := bitsToNat_lt bits
    rw [hlen] at this
    exact this
  have hn16 : bitsToNat bits < 16 ^ 128 := by
    have h16 : (16 : ℕ) ^ 128 = 2 ^ 512 := by
      rw [show (16 : ℕ) = 2 ^ 4 from rfl, ← pow_mul]
    rw [h16]
    exact hn
  have hdl : (Nat.digits 16 (bitsToNat bits)).length ≤ 128 :=
    digits_len_le_of_lt (by norm_num) hn16
  have hhl : (hexDigitsOf (bitsToNat bits)).length ≤ 128 := by
    unfold hexDigitsOf
    rw [List.length_map, List.length_reverse]
    exact hdl
  refine ⟨zfill 128 (hexDigitsOf (bitsToNat bits)), ?_, zfill_length hhl, ?_, ?_⟩
  · unfold bits_to_hex
    rw [if_pos hlen]
  · intro ch hch
    rcases List.mem_append.mp hch with hch | hch
    · rw [List.eq_of_mem_replicate hch]
      rfl
    · rcases List.mem_map.mp hch with ⟨d, hd, rfl⟩
      rw [hexCharVal_hexDigitChar d
        (Nat.digits_lt_base (by norm_num) (List.mem_reverse.mp hd))]
      rfl
  · unfold hex_to_bits
    rw [if_pos (zfill_length hhl), parseHexNat_round]
    show some (bfill 512 (binDigitsOf (bitsToNat bits))) = some bits
    rw [bfill_binDigits_eq_natToBits 512 (bitsToNat bits) hn]
    rw [← hlen, natToBits_bitsToNat]

/-- Witness for C10 at the concrete all-zero fingerprint. -/
theorem fingerprint_hex_round_trip_witness :
    (List.replicate 512 false).length = 512
    ∧ ∃ h : List Char, bits_to_hex (List.replicate 512 false) = some h
      ∧ h.length = 128
      ∧ (∀ ch ∈ h, (hexCharVal? ch).isSome = true)
      ∧ hex_to_bits h = some (List.replicate 512 false) :=
  ⟨List.length_replicate 512 false,
    fingerprint_hex_round_trip (List.replicate 512 false)
      (List.length_replicate 512 false)⟩

/-! ### Target resolution (views.py lines 224-237) -/

/-- One row of the id-mapping query `retrieve_items_by_fingerprint_ids`:
two nullable integer columns. -/
structure ItemRow where
  compound_id : Option ℤ
  genbank_region_id : Option ℤ
deriving DecidableEq

/-- Python truthiness of a nullable integer column: both `None` and `0`
are falsy. -/
def truthy : Option ℤ → Bool
  | none => false
  | some v => v != 0

/-- One iteration of the resolver loop (views.py lines 232-237):
`if compound_id and not genbank_region_id` adds to `compound_ids`,
`elif genbank_region_id and not compound_id` adds to
`genbank_region_ids`, and every other row is ignored. -/
def resolveStep (acc : Finset ℤ × Finset ℤ) (row : ItemRow) :
    Finset ℤ × Finset ℤ :=
  if truthy row.compound_id && !truthy row.genbank_region_id then
    (insert (row.compound_id.getD 0) acc.1, acc.2)
  else if truthy row.genbank_region_id && !truthy row.compound_id then
    (acc.1, insert (row.genbank_region_id.getD 0) acc.2)
  else acc

/-- The Target Resolver: fold the id-mapping rows into the two (Python
`set`) accumulators, starting from empty sets. -/
def resolveTargets (rows : List ItemRow) : Finset ℤ × Finset ℤ :=
  rows.foldl resolveStep (∅, ∅)

theorem resolve_foldl_mem (rows : List ItemRow) :
    ∀ (acc : Finset ℤ × Finset ℤ) (v : ℤ),
      (v ∈ (rows.foldl resolveStep acc).1 ↔
        v ∈ acc.1 ∨ ∃ row, row ∈ rows ∧ truthy row.compound_id = true ∧
          truthy row.genbank_region_id = false ∧ row.compound_id = some v)
      ∧ (v ∈ (rows.foldl resolveStep acc).2 ↔
        v ∈ acc.2 ∨ ∃ row, row ∈ rows ∧ truthy row.genbank_region_id = true ∧
          truthy row.compound_id = false ∧ row.genbank_region_id = some v) := by
  induction rows with
  | nil => intro acc v; simp
  | cons r rows ih =>
    intro acc v
    rw [List.foldl_cons]
    obtain ⟨ih1, ih2⟩ := ih (resolveStep acc r) v
    cases hc : truthy r.compound_id <;> cases hg : truthy r.genbank_region_id
    · have hstep : resolveStep acc r = acc := by
        simp [resolveStep, hc, hg]
      rw [hstep] at ih1 ih2 ⊢
      constructor
      · rw [ih1]
        simp only [List.mem_cons]
        constructor
        · rintro (h | ⟨row, hmem, h1, h2, h3⟩)
          · exact Or.inl h
          · exact Or.inr ⟨row, Or.inr hmem, h1, h2, h3⟩
        · rintro (h | ⟨row, (rfl | hmem), h1, h2, h3⟩)
          · exact Or.inl h
          · rw [hc] at h1; exact absurd h1 (by simp)
          · exact Or.inr ⟨row, hmem, h1, h2, h3⟩
      · rw [ih2]
        simp only [List.mem_cons]
        constructor
        · rintro (h | ⟨row, hmem, h1, h2, h3⟩)
          · exact Or.inl h
          · exact Or.inr ⟨row, Or.inr hmem, h1, h2, h3⟩
        · rintro (h | ⟨row, (rfl | hmem), h1, h2, h3⟩)
          · exact Or.inl h
          · rw [hg] at h1; exact absurd h1 (by simp)
          · exact Or.inr ⟨row, hmem, h1, h2, h3⟩
    · have hstep : resolveStep acc r
          = (acc.1, insert (r.genbank_region_id.getD 0) acc.2) := by
        simp [resolveStep, hc, hg]
      obtain ⟨u, hu⟩ : ∃ u : ℤ, r.genbank_region_id = some u := by
        cases hgid : r.genbank_region_id with
        | none => rw [hgid] at hg; exact absurd hg (by simp [truthy])
        | some u => exact ⟨u, rfl⟩
      rw [hstep] at ih1 ih2 ⊢
      constructor
      · rw [ih1]
        simp only [List.mem_cons]
        constructor
        · rintro (h | ⟨row, hmem, h1, h2, h3⟩)
          · exact Or.inl h
          · exact Or.inr ⟨row, Or.inr hmem, h1, h2, h3⟩
        · rintro (h | ⟨row, (rfl | hmem), h1, h2, h3⟩)
          · exact Or.inl h
          · rw [hc] at h1; exact absurd h1 (by simp)
          · exact Or.inr ⟨row, hmem, h1, h2, h3⟩
      · rw [ih2]
        simp only [Finset.mem_insert, List.mem_cons]
        constructor
        · rintro ((rfl | h) | ⟨row, hmem, h1, h2, h3⟩)
          · refine Or.inr ⟨r, Or.inl rfl, hg, hc, ?_⟩
            rw [hu]
            rfl
          · exact Or.inl h
          · exact Or.inr ⟨row, Or.inr hmem, h1, h2, h3⟩
        · rintro (h | ⟨row, (rfl | hmem), h1, h2, h3⟩)
          · exact Or.inl (Or.inr h)
          · refine Or.inl (Or.inl ?_)
            rw [hu] at h3
            rw [hu]
            simp only [Option.getD_some]
            exact (Option.some_inj.mp h3).symm
          · exact Or.inr ⟨row, hmem, h1, h2, h3⟩
    · have hstep : resolveStep acc r
          = (insert (r.compound_id.getD 0) acc.1, acc.2) := by
        simp [resolveStep, hc, hg]
      obtain ⟨u, hu⟩ : ∃ u : ℤ, r.compound_id = some u := by
        cases hcid : r.compound_id with
        | none => rw [hcid] at hc; exact absurd hc (by simp [truthy])
        | some u => exact ⟨u, rfl⟩
      rw [hstep] at ih1 ih2 ⊢
      constructor
      · rw [ih1]
        simp only [Finset.mem_insert, List.mem_cons]
        constructor
        · rintro ((rfl | h) | ⟨row, hmem, h1, h2, h3⟩)
          · refine Or.inr ⟨r, Or.inl rfl, hc, hg, ?_⟩
            rw [hu]
            rfl
          · exact Or.inl h
          · exact Or.inr ⟨row, Or.inr hmem, h1, h2, h3⟩
        · rintro (h | ⟨row, (rfl | hmem), h1, h2, h3⟩)
          · exact Or.inl (Or.inr h)
          · refine Or.inl (Or.inl ?_)
            rw [hu] at h3
            rw [hu]
            simp only [Option.getD_some]
            exact (Option.some_inj.mp h3).symm
          · exact Or.inr ⟨row, hmem, h1, h2, h3⟩
      · rw [ih2]
        simp only [List.mem_cons]
        constructor
        · rintro (h | ⟨row, hmem, h1, h2, h3⟩)
          · exact Or.inl h
          · exact Or.inr ⟨row, Or.inr hmem, h1, h2, h3⟩
        · rintro (h | ⟨row, (rfl | hmem), h1, h2, h3⟩)
          · exact Or.inl h
          · rw [hc] at h2; exact absurd h2 (by simp)
          · exact Or.inr ⟨row, hmem, h1, h2, h3⟩
    · have hstep : resolveStep acc r = acc := by
        simp [resolveStep, hc, hg]
      rw [hstep] at ih1 ih2 ⊢
      constructor
      · rw [ih1]
        simp only [List.mem_cons]
        constructor
        · rintro (h | ⟨row, hmem, h1, h2, h3⟩)
          · exact Or.inl h
          · exact Or.inr ⟨row, Or.inr hmem, h1, h2, h3⟩
        · rintro (h | ⟨row, (rfl | hmem), h1, h2, h3⟩)
          · exact Or.inl h
          · rw [hg] at h2; exact absurd h2 (by simp)
          · exact Or.inr ⟨row, hmem, h1, h2, h3⟩
      · rw [ih2]
        simp only [List.mem_cons]
        constructor
        · rintro (h | ⟨row, hmem, h1, h2, h3⟩)
          · exact Or.inl h
          · exact Or.inr ⟨row, Or.inr hmem, h1, h2, h3⟩
        · rintro (h | ⟨row, (rfl | hmem), h1, h2, h3⟩)
          · exact Or.inl h
          · rw [hc] at h2; exact absurd h2 (by simp)
          · exact Or.inr ⟨row, hmem, h1, h2, h3⟩

/-- C8 (amended: the code keys on Python truthiness, so a field equal to
`0` counts as absent even though it is present/non-NULL): an id lands in
`compound_ids` iff some row has a truthy `compound_id` equal to it and a
falsy `genbank_region_id`, and symmetrically for `genbank_region_ids`;
every other row is dropped silently (the fold is total and never fails). -/
theorem resolver_spec (rows : List ItemRow) (v : ℤ) :
    (v ∈ (resolveTargets rows).1 ↔
      ∃ row, row ∈ rows ∧ truthy row.compound_id = true ∧
        truthy row.genbank_region_id = false ∧ row.compound_id = some v)
    ∧ (v ∈ (resolveTargets rows).2 ↔
      ∃ row, row ∈ rows ∧ truthy row.genbank_region_id = true ∧
        truthy row.compound_id = false ∧ row.genbank_region_id = some v) := by
  obtain ⟨h1, h2⟩ := resolve_foldl_mem rows (∅, ∅) v
  constructor
  · rw [resolveTargets, h1]
    simp
  · rw [resolveTargets, h2]
    simp

/-- Counterexample to C8 as stated: in the row
`(compound_id = 0, genbank_region_id = 5)` BOTH fields are present
(non-NULL), so the claim demands the row be dropped; the code nevertheless
adds `5` to `genbank_region_ids`, because `compound_id = 0` is Python-falsy
and the `elif genbank_region_id and not compound_id` branch fires. -/
theorem resolver_present_counterexample :
    (ItemRow.mk (some 0) (some 5)).compound_id.isSome = true
    ∧ (ItemRow.mk (some 0) (some 5)).genbank_region_id.isSome = true
    ∧ resolveTargets [ItemRow.mk (some 0) (some 5)]
        = (∅, insert 5 ∅) := by
  refine ⟨rfl, rfl, ?_⟩
  rfl

/-! ### Enrichment orchestration (views.py lines 183-391)

`run_enrichment` is modelled as a function of the request fingerprint and
an abstract read-only database.  The returned trace lists, in order, the
SQL queries that actually executed; a `ValueError` raised inside
`execute_named_query`'s parameter preprocessing (the `hex_to_bits` call of
`preprocess_cross_modal_params`, which runs before any SQL) therefore
leaves the trace empty.  Python's `set(...)` of hit identifiers is modelled
by `List.dedup`, and the two id sets are passed to the subset-count query
as sets. -/

/-- The named queries `run_enrichment` can execute. -/
inductive QueryName where
  | crossModalRetrieval
  | retrieveItemsByFingerprintIds
  | annotationCountsFull
  | annotationCountsSubset
  | targetCounts
deriving DecidableEq

/-- Abstract read-only data source behind `execute_named_query`. -/
structure EnrichDb where
  searchRows : List ℤ
  itemRows : List ℤ → List ItemRow
  fullRows : List AnnRow
  subsetRows : Finset ℤ → Finset ℤ → List AnnRow
  nCompounds : ℤ
  nGenbankRegions : ℤ

/-- One enrichment candidate (views.py lines 329-337): the identity of the
annotation, the two counts, and the raw Fisher p-value (the guard of
`aggregateRow` guarantees `a, b, c, d ≥ 0`, so `_fisher_exact_two_sided`
cannot raise here; `background_count` stores `background_with = c + a`). -/
structure EnrichCandidate where
  id : String
  schema : String
  key : String
  value : String
  subset_count : ℤ
  background_count : ℤ
  p_value : ℚ
deriving DecidableEq

def mkCandidate (entry : AnnRow × ℤ × ℤ × ℤ × ℤ) : EnrichCandidate :=
  { id := entry.1.scheme ++ "::" ++ entry.1.key ++ "::" ++ entry.1.value
    schema := entry.1.scheme
    key := entry.1.key
    value := entry.1.value
    subset_count := entry.2.1
    background_count := entry.2.2.2.1 + entry.2.1
    p_value := fisherCore entry.2.1.toNat entry.2.2.1.toNat
      entry.2.2.2.1.toNat entry.2.2.2.2.toNat }

/-- One entry of the response's `items` list (views.py lines 366-381). -/
structure RankedItem where
  id : String
  schema : String
  key : String
  value : String
  p_value : ℚ
  adjusted_p_value : ℚ
deriving DecidableEq

/-- The final ordering key `(adjusted_p_value, p_value)` compared the way
Python compares tuples (lexicographically). -/
def rankKeyLe (x y : RankedItem) : Prop :=
  x.adjusted_p_value < y.adjusted_p_value ∨
    (x.adjusted_p_value = y.adjusted_p_value ∧ x.p_value ≤ y.p_value)

instance : DecidableRel rankKeyLe := fun x y => by
  unfold rankKeyLe
  infer_instance

/-- BH correction plus final ranking (views.py lines 339-381): the stable
sort by raw p-value fixes each candidate's 1-based rank, the candidate at
rank `i` receives `bhAdjusted` of the raw p-value list at `i`, and the
items are then sorted by `(adjusted_p_value, p_value)`.  (The code writes
the adjusted values back through `sorted_indices` and sorts the original
order; both stable pipelines give the same output list.) -/
def rankItems (cands : List EnrichCandidate) : List RankedItem :=
  let ps := cands.map (fun cand => cand.p_value)
  let sortedCands := cands.insertionSort
    (fun x y => x.p_value ≤ y.p_value)
  let withAdj := ((List.range cands.length).zip sortedCands).map
    (fun pr =>
      { id := pr.2.id, schema := pr.2.schema, key := pr.2.key,
        value := pr.2.value, p_value := pr.2.p_value,
        adjusted_p_value := bhAdjusted ps (pr.1 + 1) : RankedItem })
  withAdj.insertionSort rankKeyLe

/-- Outcome of one `run_enrichment` request. -/
inductive EnrichOutcome where
  | validationErrorMissingFingerprint
  | validationErrorPreprocess
  | candidateOverflow
  | done (items : List RankedItem)
deriving DecidableEq

/-- `run_enrichment` (views.py lines 183-391): request validation, the
similarity search with the 1000-row cap, target resolution, the no-target
short-circuit, the three count queries, aggregation, exact testing, BH
correction and ranking.  The second component is the trace of executed
queries. -/
def runEnrichmentModel (fp : Option (List Char)) (db : EnrichDb) :
    EnrichOutcome × List QueryName :=
  match fp with
  | none => (EnrichOutcome.validationErrorMissingFingerprint, [])
  | some s =>
    if s = [] then (EnrichOutcome.validationErrorMissingFingerprint, [])
    else if (hex_to_bits s).isNone then
      (EnrichOutcome.validationErrorPreprocess, [])
    else if 1000 ≤ db.searchRows.length then
      (EnrichOutcome.candidateOverflow, [QueryName.crossModalRetrieval])
    else
      let readoutIds := db.searchRows.dedup
      let resolved := resolveTargets (db.itemRows readoutIds)
      if resolved.1 = ∅ ∧ resolved.2 = ∅ then
        (EnrichOutcome.done [],
          [QueryName.crossModalRetrieval,
           QueryName.retrieveItemsByFingerprintIds])
      else
        let subsetTotal : ℤ := (resolved.1.card : ℤ) + (resolved.2.card : ℤ)
        let backgroundTotal : ℤ := db.nCompounds + db.nGenbankRegions
        let tables := aggregateTables subsetTotal backgroundTotal
          db.fullRows (db.subsetRows resolved.1 resolved.2)
        (EnrichOutcome.done (rankItems (tables.map mkCandidate)),
          [QueryName.crossModalRetrieval,
           QueryName.retrieveItemsByFingerprintIds,
           QueryName.annotationCountsFull,
           QueryName.annotationCountsSubset,
           QueryName.targetCounts])

/-- C7: when the similarity search returns at least the cap of 1000 rows,
`run_enrichment` aborts with the overflow error right after that first
query: the trace holds only the similarity search, so no id-mapping,
subset-count, full-count or target-total query executes, and no
resolution, aggregation, exact test or correction output is produced. -/
theorem overflow_aborts (s : List Char) (db : EnrichDb)
    (hs : s ≠ []) (hhex : hex_to_bits s ≠ none)
    (hcap : 1000 ≤ db.searchRows.length) :
    runEnrichmentModel (some s) db
      = (EnrichOutcome.candidateOverflow, [QueryName.crossModalRetrieval]) := by
  show (if s = [] then (EnrichOutcome.validationErrorMissingFingerprint, [])
    else if (hex_to_bits s).isNone then
      (EnrichOutcome.validationErrorPreprocess, [])
    else if 1000 ≤ db.searchRows.length then
      (EnrichOutcome.candidateOverflow, [QueryName.crossModalRetrieval])
    else _) = _
  rw [if_neg hs,
    if_neg (fun hcontra => hhex (Option.isNone_iff_eq_none.mp hcontra)),
    if_pos hcap]

/-- C9: a missing or empty `fingerprint512` is rejected with the 400
validation response before any query; any other fingerprint on which hex
decoding fails raises the `ValueError` inside the first
`execute_named_query`'s parameter preprocessing, which also happens before
any SQL query is issued — in all these cases the query trace is empty. -/
theorem validation_rejects_before_queries (db : EnrichDb) :
    runEnrichmentModel none db
        = (EnrichOutcome.validationErrorMissingFingerprint, [])
    ∧ runEnrichmentModel (some []) db
        = (EnrichOutcome.validationErrorMissingFingerprint, [])
    ∧ (∀ s : List Char, s ≠ [] → hex_to_bits s = none →
        runEnrichmentModel (some s) db
          = (EnrichOutcome.validationErrorPreprocess, [])) := by
  refine ⟨rfl, rfl, ?_⟩
  · intro s hs hhex
    show (if s = [] then (EnrichOutcome.validationErrorMissingFingerprint, [])
      else if (hex_to_bits s).isNone then
        (EnrichOutcome.validationErrorPreprocess, [])
      else _) = _
    rw [if_neg hs, if_pos (Option.isNone_iff_eq_none.mpr hhex)]

/-- A database stub used by the witnesses. -/
def emptyDb : EnrichDb :=
  ⟨[], fun _ => [], [], fun _ _ => [], 0, 0⟩

/-- A database whose similarity search returns exactly 1000 rows. -/
def overflowDb : EnrichDb :=
  ⟨(List.range 1000).map Int.ofNat, fun _ => [], [], fun _ _ => [], 0, 0⟩

/-- The all-zero 128-character fingerprint string. -/
def zeroFp : List Char := List.replicate 128 '0'

theorem hex_to_bits_zeroFp_isSome : hex_to_bits zeroFp ≠ none := by
  have hp : parseHexNat? zeroFp = some 0 := by
    show (List.replicate 128 '0').foldl parseHexStep (some 0) = some 0
    have h := parseHex_replicate_zero 128 []
    rw [List.append_nil] at h
    exact h
  have hlen : zeroFp.length = 128 := by
    unfold zeroFp
    exact List.length_replicate 128 _
  unfold hex_to_bits
  rw [if_pos hlen, hp]
  simp

/-- Witness for C7: the all-zero fingerprint against a database returning
exactly 1000 similarity rows. -/
theorem overflow_aborts_witness :
    (zeroFp ≠ [] ∧ hex_to_bits zeroFp ≠ none
      ∧ 1000 ≤ overflowDb.searchRows.length) ∧
    runEnrichmentModel (some zeroFp) overflowDb
      = (EnrichOutcome.candidateOverflow, [QueryName.crossModalRetrieval]) := by
  have h1 : zeroFp ≠ [] := by
    unfold zeroFp
    simp
  have h3 : 1000 ≤ overflowDb.searchRows.length := by
    unfold overflowDb
    simp
  exact ⟨⟨h1, hex_to_bits_zeroFp_isSome, h3⟩,
    overflow_aborts zeroFp overflowDb h1 hex_to_bits_zeroFp_isSome h3⟩

/-- Witness for C9: the one-character fingerprint `"x"` is malformed (hex
decode fails on its length) and is rejected with an empty query trace. -/
theorem validation_rejects_witness :
    ((['x'] : List Char) ≠ [] ∧ hex_to_bits ['x'] = none) ∧
    runEnrichmentModel (some ['x']) emptyDb
      = (EnrichOutcome.validationErrorPreprocess, []) :=
  ⟨⟨by decide, by decide⟩,
    (validation_rejects_before_queries emptyDb).2.2 ['x'] (by decide) (by decide)⟩

end RetroMol
